import Mathlib

/-!
Verification of the wail SMTP mail library (github.com/rub1q/wail).

The Go sources are shallowly embedded below.  Go strings are modelled as
lists of Unicode characters (`GoStr`); where the Go code measures a string
with `len` (which counts UTF-8 bytes) the model uses `goLen`, the sum of
the UTF-8 sizes of the characters, which agrees with Go exactly.  Indexing
and slicing are modelled at the character level; this is exact for ASCII
data, which is the domain of every header token the library produces.
Byte slices (`[]byte`) holding message bodies are likewise modelled as
`GoStr`; `goBytes` converts them to the underlying UTF-8 byte sequence
where an encoder consumes raw bytes.

Effects are made explicit: the wall clock (`time.Now`) is threaded as a
`date` argument, fallible operations return `Except`/`Option`, receiver
mutation becomes state passing, and the network is an oracle record
(`Transport`) of command outcomes.
-/

set_option maxRecDepth 8000

namespace Wail

/-- Decidable equality of `Except` results, so that concrete runs of the
embedded fallible operations can be settled by `decide`. -/
instance instDecEqExcept {ε α : Type} [DecidableEq ε] [DecidableEq α] :
    DecidableEq (Except ε α) := fun x y =>
  match x, y with
  | .ok a, .ok b =>
    if h : a = b then .isTrue (by rw [h]) else .isFalse (fun hh => h (Except.ok.inj hh))
  | .error a, .error b =>
    if h : a = b then .isTrue (by rw [h]) else .isFalse (fun hh => h (Except.error.inj hh))
  | .ok _, .error _ => .isFalse (fun hh => Except.noConfusion hh)
  | .error _, .ok _ => .isFalse (fun hh => Except.noConfusion hh)

/-- Go string, modelled as its list of characters. -/
abbrev GoStr := List Char

/-- Embeds a Lean string literal as a `GoStr`. -/
def gs (s : String) : GoStr := s.toList

/-- The CRLF line terminator used throughout the library. -/
def crlf : GoStr := ['\r', '\n']

/-- Go `len` on a string: the number of UTF-8 bytes. -/
def goLen (s : GoStr) : Nat := (s.map Char.utf8Size).sum

/-- UTF-8 bytes of one character (standard 1 to 4 byte encoding),
modelling the byte view Go takes of a string on `[]byte` conversion. -/
def utf8EncodeChar (c : Char) : List Nat :=
  let n := c.toNat
  if n < 0x80 then [n]
  else if n < 0x800 then [0xC0 + n / 64, 0x80 + n % 64]
  else if n < 0x10000 then [0xE0 + n / 4096, 0x80 + n / 64 % 64, 0x80 + n % 64]
  else [0xF0 + n / 262144, 0x80 + n / 4096 % 64, 0x80 + n / 64 % 64, 0x80 + n % 64]

/-- Go `[]byte(s)`: the UTF-8 bytes of a string. -/
def goBytes (s : GoStr) : List Nat := s.flatMap utf8EncodeChar

/-- Go `unicode.IsSpace` on the runes this library can meet
(ASCII whitespace plus the Latin-1 and Unicode space runes). -/
def goIsSpace (c : Char) : Bool :=
  c = ' ' || c = '\t' || c = '\n' || c = Char.ofNat 11 || c = Char.ofNat 12 ||
  c = '\r' || c = Char.ofNat 0x85 || c = Char.ofNat 0xA0 ||
  c = Char.ofNat 0x1680 || (0x2000 ≤ c.toNat && c.toNat ≤ 0x200A) ||
  c = Char.ofNat 0x2028 || c = Char.ofNat 0x2029 || c = Char.ofNat 0x202F ||
  c = Char.ofNat 0x205F || c = Char.ofNat 0x3000

/-- Worker for `fields`: accumulates the current token (reversed) while
scanning, emitting it at every whitespace run boundary. -/
def fieldsAux : List Char → List Char → List (List Char)
  | [], acc => if acc.isEmpty then [] else [acc.reverse]
  | c :: cs, acc =>
    if goIsSpace c then
      if acc.isEmpty then fieldsAux cs [] else acc.reverse :: fieldsAux cs []
    else fieldsAux cs (c :: acc)

/-- Go `strings.Fields`: splits around runs of whitespace. -/
def fields (s : GoStr) : List (List Char) := fieldsAux s []

/-- Go `strings.Join(ls, "\r\n")`. -/
def joinCRLF : List (List Char) → List Char
  | [] => []
  | [t] => t
  | t :: u :: rest => t ++ crlf ++ joinCRLF (u :: rest)

-- RFC 5322 2.2.3 (mime.go)
def lineLengthLimit : Nat := 76

/-- Fuel-driven worker for `split`; the fuel (initially the length of the
string) only serves as a structural termination measure for the Go loop
`for i := 0; i < len(s); i += lineLengthLimit`. -/
def splitF : Nat → GoStr → List (List Char)
  | _, [] => []
  | 0, _ :: _ => []
  | fuel + 1, c :: cs =>
    (c :: cs).take lineLengthLimit :: splitF fuel ((c :: cs).drop lineLengthLimit)

/-- Function `split` of mime.go: cuts a string into consecutive chunks of
at most `lineLengthLimit` characters (returns the empty list on empty
input, matching the Go nil slice). -/
def split (s : GoStr) : List (List Char) := splitF s.length s

/-- Body of the `splitHeader` token loop of mime.go: each token is emitted
(hard-split into limit-sized chunks when longer than the limit) followed
by CRLF. -/
def splitHeaderBody : List (List Char) → List Char
  | [] => []
  | t :: rest =>
    (if t.length > lineLengthLimit then joinCRLF (split t) else t) ++ crlf ++
      splitHeaderBody rest

/-- Function `splitHeader` of mime.go: folds a header string by splitting
it into whitespace-separated tokens, hard-splitting oversized tokens, and
joining everything with CRLF (the trailing CRLF of the loop is cut off). -/
def splitHeader (header : GoStr) : GoStr :=
  if header = [] then []
  else
    let s := fields header
    if s = [] then header
    else (splitHeaderBody s).take ((splitHeaderBody s).length - 2)

/-- Alphabet of standard base64 (`encoding/base64.StdEncoding`). -/
def base64Alphabet : GoStr :=
  gs "ABCDEFGHIJKLMNOPQRSTUVWXYZabcdefghijklmnopqrstuvwxyz0123456789+/"

/-- One base64 digit. -/
def base64Digit (n : Nat) : Char := base64Alphabet.getD n 'A'

/-- Core of Go `base64.StdEncoding.EncodeToString`: groups of three bytes
become four digits, with `=` padding on a short final group. -/
def base64Core : List Nat → GoStr
  | [] => []
  | [b0] =>
    [base64Digit (b0 / 4), base64Digit (b0 % 4 * 16), '=', '=']
  | [b0, b1] =>
    [base64Digit (b0 / 4), base64Digit (b0 % 4 * 16 + b1 / 16),
     base64Digit (b1 % 16 * 4), '=']
  | b0 :: b1 :: b2 :: rest =>
    [base64Digit (b0 / 4), base64Digit (b0 % 4 * 16 + b1 / 16),
     base64Digit (b1 % 16 * 4 + b2 / 64), base64Digit (b2 % 64)] ++
      base64Core rest

/-- Function `base64Encode` of mime.go: standard base64, hard-wrapped with
CRLF every `lineLengthLimit` characters when longer than the limit. -/
def base64Encode (text : GoStr) : GoStr :=
  let out := base64Core (goBytes text)
  if out.length > lineLengthLimit then joinCRLF (split out) else out

/-- Function `qpEncode` of mime.go.  The source builds a
`quotedprintable.Writer` over a scratch `bytes.Buffer`, writes a copy of
the input through it, and then returns the copy of the input rather than
the contents of the buffer; the encoded output is discarded.  `Write` and
`Close` on a writer backed by a `bytes.Buffer` cannot fail, so the
function always returns its input unchanged with no error. -/
def qpEncode (text : GoStr) : Except Unit GoStr :=
  Except.ok text

/-- Uppercase hexadecimal digit. -/
def hexDigitU (n : Nat) : Char := (gs "0123456789ABCDEF").getD n '0'

/-- Quoted-printable escape `=XX` of one byte. -/
def qpEscape (b : Nat) : GoStr := ['=', hexDigitU (b / 16), hexDigitU (b % 16)]

/-- Modelled from the spec: the RFC 2045 section 6.7 quoted-printable
encoding that the spec says the quoted-printable body path produces (the
repository delegates the actual encoding to the Go standard library
`mime/quotedprintable`, which is not part of the repository source).
Printable bytes 33..126 other than 61 (`=`) are literal; space and tab
are literal except at the end of the data; every other byte becomes an
`=XX` escape; a soft line break `=CRLF` keeps encoded lines within 76
characters. -/
def rfc2045QpTok (b : Nat) (rest : List Nat) : GoStr :=
  if 33 ≤ b ∧ b ≤ 126 ∧ b ≠ 61 then [Char.ofNat b]
  else if (b = 32 ∨ b = 9) ∧ rest ≠ [] then [Char.ofNat b]
  else qpEscape b

/-- Soft-line-break accumulating loop of the spec-modelled RFC 2045
quoted-printable encoder. -/
def rfc2045QpLoop (col : Nat) : List Nat → GoStr
  | [] => []
  | b :: rest =>
    let tok := rfc2045QpTok b rest
    if col + tok.length > 75 then
      '=' :: crlf ++ tok ++ rfc2045QpLoop tok.length rest
    else tok ++ rfc2045QpLoop (col + tok.length) rest

/-- Modelled from the spec: RFC 2045 section 6.7 quoted-printable
encoding of a byte sequence. -/
def rfc2045QpEncode (bytes : List Nat) : GoStr := rfc2045QpLoop 0 bytes

/-- Loop of `makeAddrString` of mime.go: before appending the next
`<addr>,` token a CRLF is inserted whenever the whole accumulated string
plus the token would exceed the line length limit. -/
def makeAddrStringLoop (sAddr : GoStr) : List GoStr → GoStr
  | [] => sAddr
  | v :: rest =>
    let sAddr2 := if sAddr.length + v.length + 3 > lineLengthLimit
      then sAddr ++ crlf else sAddr
    makeAddrStringLoop (sAddr2 ++ '<' :: v ++ ['>', ',']) rest

/-- Function `makeAddrString` of mime.go: wraps each address in angle
brackets, comma-separated, with the fold rule above; the final trailing
comma is cut off.  (On an empty list the Go code would panic on the
closing slice; the model totalises that case to the empty string, and
every caller guards against it.) -/
def makeAddrString (addr : List GoStr) : GoStr :=
  (makeAddrStringLoop [] addr).dropLast

/-- Type `encoding` of mail.go. -/
inductive Encoding where
  | quotedPrintable
  | base64
deriving DecidableEq

/-- String value of an `encoding` constant. -/
def Encoding.goValue : Encoding → GoStr
  | .quotedPrintable => gs "quoted-printable"
  | .base64 => gs "base64"

/-- Type `charset` of mail.go. -/
inductive Charset where
  | utf8
  | iso8859_1
  | usAscii
deriving DecidableEq

/-- String value of a `charset` constant. -/
def Charset.goValue : Charset → GoStr
  | .utf8 => gs "UTF-8"
  | .iso8859_1 => gs "ISO-8859-1"
  | .usAscii => gs "US-ASCII"

/-- Type `contentType` of message.go. -/
inductive ContentType where
  | textPlain
  | textHtml
  | multipartMix
  | multipartAlt
  | applOctetStream
deriving DecidableEq

/-- Map `contentTypes` of message.go (method `contentType.string`).  The
result doubles as the header-map key used by `SetMessage` and
`GetResultMessage`. -/
def ContentType.string : ContentType → String
  | .textPlain => "text/plain"
  | .textHtml => "text/html"
  | .multipartMix => "multipart/mixed"
  | .multipartAlt => "multipart/alternative"
  | .applOctetStream => "application/octet-stream"

/-- Modelled from the spec: `mime.WordEncoder.Encode` is Go standard
library code, not repository source.  Per the spec, a value needing no
encoding passes through unchanged, and otherwise an RFC 2047 encoded word
is produced, the Q form under quoted-printable and the B form under
base64.  Its internals are irrelevant to every claim below. -/
def wordEncode (enc : Encoding) (cs : Charset) (v : GoStr) : GoStr :=
  if v.all (fun c => 32 ≤ c.toNat && c.toNat ≤ 126) then v
  else
    match enc with
    | .quotedPrintable =>
      gs "=?" ++ cs.goValue ++ gs "?Q?" ++
        (goBytes v).flatMap (fun b =>
          if 33 ≤ b ∧ b ≤ 126 ∧ b ≠ 61 ∧ b ≠ 63 ∧ b ≠ 95 then [Char.ofNat b]
          else if b = 32 then ['_'] else qpEscape b) ++ gs "?="
    | .base64 => gs "=?" ++ cs.goValue ++ gs "?B?" ++ base64Core (goBytes v) ++ gs "?="

/-- Header map of the `mimeBuilder` (`map[string]string`), modelled as a
partial function from keys. -/
def HeaderMap := String → Option GoStr

/-- Go map assignment `h[k] = v`. -/
def HeaderMap.set (h : HeaderMap) (k : String) (v : GoStr) : HeaderMap :=
  fun k2 => if k2 = k then some v else h k2

/-- Go map read `h[k]` without the `ok` flag: missing keys give the zero
value, the empty string. -/
def HeaderMap.getZ (h : HeaderMap) (k : String) : GoStr := (h k).getD []

/-- Struct `mimeBuilder` of mime.go.  The `encoder mime.WordEncoder`
field is determined by `encoding` (see `newMimeBuilder`), so it is not
stored separately. -/
structure MimeBuilder where
  charset : Charset
  encoding : Encoding
  contentType : ContentType
  header : HeaderMap

/-- Function `newMimeBuilder` of mime.go: fresh empty header map; the Go
zero value of the `contentType` field is `TextPlain`. -/
def newMimeBuilder (cs : Charset) (enc : Encoding) : MimeBuilder :=
  { charset := cs, encoding := enc, contentType := .textPlain, header := fun _ => none }

/-- Method `mimeBuilder.EncodeHeader` of mime.go: empty values pass
through; the encoded word is folded when it exceeds the line limit. -/
def MimeBuilder.EncodeHeader (m : MimeBuilder) (value : GoStr) : GoStr :=
  if value = [] then value
  else
    let out := wordEncode m.encoding m.charset value
    if out.length > lineLengthLimit then splitHeader out else out

/-- Method `mimeBuilder.EncodeBody` of mime.go: base64 or the (broken,
see `qpEncode`) quoted-printable path, which falls back to the raw bytes
when the encoder reports an error. -/
def MimeBuilder.EncodeBody (m : MimeBuilder) (body : GoStr) : GoStr :=
  match m.encoding with
  | .base64 => base64Encode body
  | .quotedPrintable =>
    match qpEncode body with
    | .error _ => body
    | .ok s => s

/-- Method `mimeBuilder.SetFieldSubject` of mime.go. -/
def MimeBuilder.SetFieldSubject (m : MimeBuilder) (subj : GoStr) : MimeBuilder :=
  { m with header := m.header.set "subject" (m.EncodeHeader subj) }

/-- Method `mimeBuilder.SetFieldFrom` of mime.go. -/
def MimeBuilder.SetFieldFrom (m : MimeBuilder) (name addr : GoStr) : MimeBuilder :=
  if name = [] then { m with header := m.header.set "from" addr }
  else
    { m with header := m.header.set "from" (m.EncodeHeader name ++ gs " <" ++ addr ++ gs ">") }

/-- Method `mimeBuilder.SetFieldTo` of mime.go: a no-op on an empty
address list. -/
def MimeBuilder.SetFieldTo (m : MimeBuilder) (addr : List GoStr) : MimeBuilder :=
  if addr = [] then m
  else { m with header := m.header.set "to" (makeAddrString addr) }

/-- Method `mimeBuilder.SetFieldCc` of mime.go. -/
def MimeBuilder.SetFieldCc (m : MimeBuilder) (addr : List GoStr) : MimeBuilder :=
  if addr = [] then m
  else { m with header := m.header.set "cc" (makeAddrString addr) }

/-- Method `mimeBuilder.SetFieldBcc` of mime.go. -/
def MimeBuilder.SetFieldBcc (m : MimeBuilder) (addr : List GoStr) : MimeBuilder :=
  if addr = [] then m
  else { m with header := m.header.set "bcc" (makeAddrString addr) }

/-- Errors `mimeBuilder.GetResultMessage` can return. -/
inductive MimeErr where
  | missingTo
  | tooLarge (limit : Nat)
deriving DecidableEq

/-- Header-and-body string assembled by `GetResultMessage` once the `to`
entry is known to be present; `date` stands for `time.Now` formatted as
RFC 1123Z, threaded as a parameter. -/
def assembleMessage (m : MimeBuilder) (date toVal : GoStr) : GoStr :=
  gs "Date:" ++ date ++ crlf ++
  gs "Subject:" ++ m.header.getZ "subject" ++ crlf ++
  gs "From:" ++ m.header.getZ "from" ++ crlf ++
  gs "To:" ++ toVal ++ crlf ++
  (match m.header "cc" with
   | some cc => gs "Cc:" ++ cc ++ crlf
   | none => []) ++
  (match m.header "bcc" with
   | some bcc => gs "Bcc:" ++ bcc ++ crlf
   | none => []) ++
  gs "MIME-Version: 1.0" ++ crlf ++
  (match m.header m.contentType.string with
   | some ct => ct ++ crlf
   | none => [])

/-- Method `mimeBuilder.GetResultMessage` of mime.go: fails when the `to`
entry was never set; otherwise assembles the message and fails with the
size error (carrying the configured limit) when a non-zero
`maxMsgSize` is exceeded by the byte length of the result. -/
def MimeBuilder.GetResultMessage (m : MimeBuilder) (date : GoStr) (maxMsgSize : Nat) :
    Except MimeErr GoStr :=
  match m.header "to" with
  | none => .error .missingTo
  | some toVal =>
    let out := assembleMessage m date toVal
    if maxMsgSize ≠ 0 ∧ goLen out > maxMsgSize then .error (.tooLarge maxMsgSize)
    else .ok out

/-- Variable `boundary` of message.go: the constant value of the package
initializer, the first half of the hex SHA-224 digest of the fixed seed
string "6MHoYQhoRORdeWi6RzQaFKK7iGYieH". -/
def boundary : GoStr := gs "be40bfe9d8f84c9e8c90e4a95131"

/-- Variable `middleBound` of message.go. -/
def middleBound : GoStr := gs "--" ++ boundary ++ crlf

/-- Variable `endBound` of message.go. -/
def endBound : GoStr := gs "--" ++ boundary ++ gs "--"

/-- Struct `TextMessage` of message.go. -/
structure TextMessage where
  ctype : ContentType
  text : GoStr
deriving DecidableEq

/-- Method `TextMessage.GetContent` of message.go. -/
def TextMessage.GetContent (t : TextMessage) (mb : MimeBuilder) : GoStr :=
  gs "Content-Type: " ++ gs t.ctype.string ++ gs "; charset=" ++ mb.charset.goValue ++ crlf ++
  gs "Content-Transfer-Encoding: " ++ mb.encoding.goValue ++ crlf ++
  crlf ++
  mb.EncodeBody t.text

/-- Struct `altMessage` of message.go. -/
structure AltMessage where
  text : TextMessage
  order : Int
deriving DecidableEq

/-- Struct `MultipartAltMessage` of message.go. -/
structure MultipartAltMessage where
  msg : List AltMessage
deriving DecidableEq

/-- Method `MultipartAltMessage.SetPlainText` of message.go: appends a
plain part with the given order. -/
def MultipartAltMessage.SetPlainText (m : MultipartAltMessage) (text : GoStr) (order : Int) :
    MultipartAltMessage :=
  { msg := m.msg ++ [{ text := { ctype := .textPlain, text := text }, order := order }] }

/-- Method `MultipartAltMessage.SetHtmlText` of message.go: appends an
html part with the given order. -/
def MultipartAltMessage.SetHtmlText (m : MultipartAltMessage) (text : GoStr) (order : Int) :
    MultipartAltMessage :=
  { msg := m.msg ++ [{ text := { ctype := .textHtml, text := text }, order := order }] }

/-- Insertion step of the stable sort: a new element moves left past
exactly the elements whose order is strictly larger, so it lands after
every earlier element of equal or smaller order. -/
def insertByOrder (x : AltMessage) : List AltMessage → List AltMessage
  | [] => [x]
  | y :: ys => if y.order < x.order then y :: insertByOrder x ys else x :: y :: ys

/-- Denotation of `sort.SliceStable(m.msg, less)` with
`less i j = order i < order j` in `MultipartAltMessage.GetContent`: the
stable sort of the parts by ascending order.  A stable sort under a
total comparator has a unique result, so stable insertion sort is an
exact model. -/
def stableSortByOrder : List AltMessage → List AltMessage
  | [] => []
  | x :: xs => insertByOrder x (stableSortByOrder xs)

/-- Method `MultipartAltMessage.GetContent` of message.go: the
multipart/alternative header, then one boundary-delimited part per entry
of the stable-sorted part list, then the closing boundary. -/
def MultipartAltMessage.GetContent (m : MultipartAltMessage) (mb : MimeBuilder) : GoStr :=
  gs "Content-Type: multipart/alternative; boundary=" ++ boundary ++ crlf ++
  crlf ++
  (stableSortByOrder m.msg).flatMap
    (fun v => middleBound ++ v.text.GetContent mb ++ crlf ++ crlf) ++
  endBound

/-- Characters RFC 5322 allows in an atom (`atext`), used by the
spec-modelled address parser below.  The four symbols written with
`Char.ofNat` are apostrophe, backtick, and the two curly braces. -/
def isAtext (c : Char) : Bool :=
  c.isAlpha || c.isDigit ||
  (gs "!#$%&*+-/=?^_~|").contains c ||
  c = Char.ofNat 39 || c = Char.ofNat 96 || c = Char.ofNat 123 || c = Char.ofNat 125

/-- Splits a string at every occurrence of a separator character. -/
def splitOnChar (sep : Char) : GoStr → List GoStr
  | [] => [[]]
  | c :: cs =>
    let r := splitOnChar sep cs
    if c = sep then [] :: r
    else
      match r with
      | [] => [[c]]
      | t :: ts => (c :: t) :: ts

/-- Nonempty RFC 5322 dot-atom: dot-separated nonempty runs of `atext`
characters. -/
def dotAtomOk (s : GoStr) : Bool :=
  !s.isEmpty && (splitOnChar '.' s).all (fun seg => !seg.isEmpty && seg.all isAtext)

/-- Modelled from the spec: the repository delegates mailbox syntax
checking to `net/mail.ParseAddress` of the Go standard library, which is
not repository source.  Following the spec wording ("rejects empty
string, any syntactically invalid RFC 5322 mailbox ... accepts
well-formed user@domain.tld addresses"), an address is accepted exactly
when it is a nonempty dot-atom local part, a single `@`, and a nonempty
dot-atom domain. -/
def parseAddressOk (s : GoStr) : Bool :=
  match splitOnChar '@' s with
  | [loc, dom] => dotAtomOk loc && dotAtomOk dom
  | _ => false

/-- Errors of the recipient-validation path in mail.go. -/
inductive MailErr where
  | emptyList
  | tooLong
  | badAddress
deriving DecidableEq

/-- Per-address check of `Mail.validateAndAppendEmails`: the length guard
(`len(email) > 254`, a byte count) runs before the syntax parse, so an
oversized address is rejected whatever its syntax. -/
def checkEmail (email : GoStr) : Option MailErr :=
  if goLen email > 254 then some .tooLong
  else if !parseAddressOk email then some .badAddress
  else none

/-- First failure of the validation loop over an address list. -/
def firstEmailError : List GoStr → Option MailErr
  | [] => none
  | e :: rest =>
    match checkEmail e with
    | some err => some err
    | none => firstEmailError rest

/-- Struct `Mail` of mail.go (the charset and encoding of the config live
inside the builder). -/
structure MailState where
  mb : MimeBuilder
  recipients : List GoStr

/-- Function `NewMail` of mail.go with a non-nil config. -/
def NewMail (cs : Charset) (enc : Encoding) : MailState :=
  { mb := newMimeBuilder cs enc, recipients := [] }

/-- Method `Mail.validateAndAppendEmails` of mail.go: the whole list is
validated before the single append that follows the loop, so an error
leaves the receiver untouched.  The pair returns the Go error value and
the receiver state after the call. -/
def MailState.validateAndAppendEmails (m : MailState) (emails : List GoStr) :
    Option MailErr × MailState :=
  if emails.isEmpty then (some .emptyList, m)
  else
    match firstEmailError emails with
    | some err => (some err, m)
    | none => (none, { m with recipients := m.recipients ++ emails })

/-- Method `Mail.To` of mail.go. -/
def MailState.To (m : MailState) (emails : List GoStr) : Option MailErr × MailState :=
  match m.validateAndAppendEmails emails with
  | (some err, m2) => (some err, m2)
  | (none, m2) => (none, { m2 with mb := m2.mb.SetFieldTo emails })

/-- Method `Mail.CopyTo` of mail.go. -/
def MailState.CopyTo (m : MailState) (emails : List GoStr) : Option MailErr × MailState :=
  match m.validateAndAppendEmails emails with
  | (some err, m2) => (some err, m2)
  | (none, m2) => (none, { m2 with mb := m2.mb.SetFieldCc emails })

/-- Method `Mail.BlindCopyTo` of mail.go. -/
def MailState.BlindCopyTo (m : MailState) (emails : List GoStr) : Option MailErr × MailState :=
  match m.validateAndAppendEmails emails with
  | (some err, m2) => (some err, m2)
  | (none, m2) => (none, { m2 with mb := m2.mb.SetFieldBcc emails })

/-- Go `bytes.Contains(s, pat)`. -/
def containsTok (pat : GoStr) : GoStr → Bool
  | [] => pat.isEmpty
  | c :: rest => pat.isPrefixOf (c :: rest) || containsTok pat rest

/-- Struct `authLogin` of the auth source file. -/
structure AuthLogin where
  username : GoStr
  password : GoStr

/-- Errors of the LOGIN SASL mechanism. -/
inductive AuthErr where
  | insecureChannel
  | unknownChallenge
deriving DecidableEq

/-- The `server.TLS` flag of `smtp.ServerInfo` is the only field the
mechanism reads. -/
structure ServerInfo where
  tls : Bool

/-- Method `authLogin.Start`: refuses to run over an unencrypted
connection; otherwise announces the LOGIN mechanism with no initial
response. -/
def AuthLogin.Start (_l : AuthLogin) (server : ServerInfo) :
    Except AuthErr (GoStr × Option GoStr) :=
  if !server.tls then .error .insecureChannel
  else .ok (gs "LOGIN", none)

/-- Method `authLogin.Next`: while the server keeps challenging, answers
a prompt containing "Username" with the username, otherwise a prompt
containing "Password" with the password, and fails on anything else;
once the server stops (`more = false`) it answers nothing. -/
def AuthLogin.Next (l : AuthLogin) (fromServer : GoStr) (more : Bool) :
    Except AuthErr (Option GoStr) :=
  if more then
    if containsTok (gs "Username") fromServer then .ok (some l.username)
    else if containsTok (gs "Password") fromServer then .ok (some l.password)
    else .error .unknownChallenge
  else .ok none

/-- Errors of the SMTP client layer (client.go). -/
inductive ClientErr where
  | notConnected
  | nilMail
  | reconnectFailed
  | protocolFailure
  | noRecipients
  | mimeFailure (e : MimeErr)
deriving DecidableEq

/-- Sender part of the SMTP config that `Send` reads. -/
structure SenderConfig where
  name : GoStr
  login : GoStr

/-- The slice of `SmtpConfig` that `Send` and `Close` read. -/
structure SmtpConfig where
  sender : SenderConfig
  maxMsgSize : Nat

/-- Struct `SmtpClient` of client.go: `client = none` models the nil
`*smtp.Client` before a successful `Dial`, and `cfg = none` a nil config
pointer. -/
structure SmtpClientState where
  cfg : Option SmtpConfig
  client : Option Unit

/-- Oracle of transport outcomes for one `Send`/`Close` call: the result
of each SMTP command the session might issue, plus the formatted wall
clock read by `GetResultMessage`. -/
structure Transport where
  noopOk : Bool
  redialOk : Bool
  mailOk : Bool
  rcptOk : GoStr → Bool
  dataOk : Bool
  writeOk : Bool
  closeOk : Bool
  quitOk : Bool
  date : GoStr

/-- Method `SmtpClient.Close` of client.go: guards against a session that
was never established, then issues QUIT. -/
def SmtpClientClose (tr : Transport) (s : SmtpClientState) : Except ClientErr Unit :=
  match s.client with
  | none => .error .notConnected
  | some _ => if tr.quitOk then .ok () else .error .protocolFailure

/-- Method `SmtpClient.Send` of client.go.  `none` as overall result
models a Go runtime panic (reached only through a nil config pointer
after the guards); every guarded error is a `some (.error _)`.  The
quirks of the source are kept: a failing `Data()` call makes Send return
a nil error, and a close failure after a successful write is surfaced. -/
def SmtpClientSend (tr : Transport) (s : SmtpClientState) (m : Option MailState) :
    Option (Except ClientErr Unit) :=
  match s.client with
  | none => some (.error .notConnected)
  | some _ =>
    match m with
    | none => some (.error .nilMail)
    | some mail =>
      if !tr.noopOk && !tr.redialOk then some (.error .reconnectFailed)
      else
        match s.cfg with
        | none => none
        | some cfg =>
          if !tr.mailOk then some (.error .protocolFailure)
          else if mail.recipients.isEmpty then some (.error .noRecipients)
          else if !(mail.recipients.all tr.rcptOk) then some (.error .protocolFailure)
          else
            let mb2 := mail.mb.SetFieldFrom cfg.sender.name cfg.sender.login
            match mb2.GetResultMessage tr.date cfg.maxMsgSize with
            | .error e => some (.error (.mimeFailure e))
            | .ok _ =>
              if !tr.dataOk then some (.ok ())
              else if !tr.writeOk then some (.error .protocolFailure)
              else if !tr.closeOk then some (.error .protocolFailure)
              else some (.ok ())

/-- One token of the `splitHeader` fold: an oversized token becomes its
hard-split chunks, any other token stays whole. -/
def expandTok (t : GoStr) : List GoStr :=
  if t.length > lineLengthLimit then split t else [t]

/-- All tokens of the `splitHeader` fold. -/
def expand (ts : List GoStr) : List GoStr := ts.flatMap expandTok

/-- Splits a string at every CRLF pair (the lines of a folded header). -/
def linesCRLF : GoStr → List GoStr
  | [] => [[]]
  | '\r' :: '\n' :: rest => [] :: linesCRLF rest
  | c :: cs =>
    match linesCRLF cs with
    | [] => [[c]]
    | t :: ts => (c :: t) :: ts

/-- The folding invariant as the claim about idempotence words it: every
CRLF-separated line is at most `lineLengthLimit` characters long. -/
def isCorrectlyFolded (s : GoStr) : Bool :=
  (linesCRLF s).all (fun l => l.length ≤ lineLengthLimit)

/-- Erases every CR and LF character, leaving the fold-free content. -/
def eraseCRLF (s : GoStr) : GoStr :=
  s.filter (fun ch => !(ch == '\r' || ch == '\n'))

/-- Wraps one address in angle brackets. -/
def wrapAngle (a : GoStr) : GoStr := '<' :: a ++ ['>']

/-- Comma-join with no trailing comma. -/
def joinComma : List GoStr → GoStr
  | [] => []
  | [t] => t
  | t :: u :: rest => t ++ ',' :: joinComma (u :: rest)

/-- The four-address corpus of TestMakeAddrString. -/
def emails4 : List GoStr :=
  [gs "example1@example.com", gs "example2@example.com",
   gs "example3@example.com", gs "example4@example.com"]

/-- The multipart/alternative example of claim C6: an html part with
order 3 inserted first, then a plain part with order 2. -/
def exampleAlt : MultipartAltMessage :=
  (MultipartAltMessage.SetPlainText
    (MultipartAltMessage.SetHtmlText { msg := [] } (gs "H") 3) (gs "P") 2)

/-- The twelve syntactically invalid addresses of the test corpus
(`invalidEmails`); the fifth entry is written with an escape because it
begins with an apostrophe character. -/
def invalidEmailCorpus : List GoStr :=
  [gs "////", gs "*(())*", gs "1234", gs "<>", gs "^@", gs "####",
   gs "-_-", gs "++=1", gs "$%_", gs ";", '\x27' :: gs "/asd", gs "i am hero"]

/-- Claim C1 (status: code_bug).  The claim and the spec say the
quoted-printable path of EncodeBody produces the RFC 2045 section 6.7
encoding, raw bytes being only an encoder-failure fallback.  The code
cannot do that: `qpEncode` pipes the encoding into a discarded scratch
buffer and returns a copy of its raw input, so EncodeBody returns the
input unchanged for every body.  At the failing input `=` (byte 0x3D)
the code yields `=`, while the RFC 2045 encoding the claim promises is
`=3D`. -/
theorem c1_qp_path_returns_raw_bytes :
    (newMimeBuilder .utf8 .quotedPrintable).EncodeBody (gs "=") = gs "=" ∧
    rfc2045QpEncode (goBytes (gs "=")) = gs "=3D" ∧
    gs "=" ≠ gs "=3D" := by
  refine ⟨by decide, by decide, by decide⟩

/-- Claim C9 (status: confirmed).  With no established session (`client`
still nil) Send and Close return the not-connected error, and with a nil
mail argument Send returns the nil-message error; each case is an
ordinary returned value, never a panic (in the model a Go panic is the
`none` result, and these runs all return `some`). -/
theorem c9_nil_guards :
    (∀ (tr : Transport) (cfg : Option SmtpConfig) (m : Option MailState),
      SmtpClientSend tr { cfg := cfg, client := none } m =
        some (.error .notConnected)) ∧
    (∀ (tr : Transport) (cfg : Option SmtpConfig),
      SmtpClientSend tr { cfg := cfg, client := some () } none =
        some (.error .nilMail)) ∧
    (∀ (tr : Transport) (cfg : Option SmtpConfig),
      SmtpClientClose tr { cfg := cfg, client := none } = .error .notConnected) :=
  ⟨fun _ _ _ => rfl, fun _ _ => rfl, fun _ _ => rfl⟩

/-- Claim C2, counterexample.  The claim says the four-address example
folds after the third address with no comma before the CRLF.  The code
(and its own unit test) put the third address's separating comma before
the fold: the output contains `,CRLF` and differs from the comma-free
rendering the claim describes. -/
theorem c2_counter_comma_before_fold :
    makeAddrString emails4 =
      gs "<example1@example.com>,<example2@example.com>,<example3@example.com>," ++
        crlf ++ gs "<example4@example.com>" ∧
    makeAddrString emails4 =
      (gs "<example1@example.com>,<example2@example.com>,<example3@example.com>" ++
        (',' :: crlf)) ++ gs "<example4@example.com>" ∧
    makeAddrString emails4 ≠
      gs "<example1@example.com>,<example2@example.com>,<example3@example.com>" ++
        crlf ++ gs "<example4@example.com>" := by
  refine ⟨by decide, by decide, by decide⟩

/-- Claim C4 (status: confirmed).  Finalizing a builder whose `to` entry
was never set yields the missing-recipient error and no bytes; once `to`
is set (with a nonempty address list, which is what the To setter always
passes), finalizing with no size limit succeeds and the result contains
a `To:` line. -/
theorem c4_missing_to_guard :
    (∀ (mb : MimeBuilder) (date : GoStr) (maxMsgSize : Nat),
      mb.header "to" = none →
      mb.GetResultMessage date maxMsgSize = .error .missingTo) ∧
    (∀ (mb : MimeBuilder) (date : GoStr) (addrs : List GoStr), addrs ≠ [] →
      ∃ out, (mb.SetFieldTo addrs).GetResultMessage date 0 = .ok out ∧
        ∃ p q, out = p ++ gs "To:" ++ q) := by
  constructor
  · intro mb date maxMsgSize h
    simp [MimeBuilder.GetResultMessage, h]
  · intro mb date addrs h
    have hto : (mb.SetFieldTo addrs).header "to" = some (makeAddrString addrs) := by
      simp [MimeBuilder.SetFieldTo, if_neg h, HeaderMap.set]
    refine ⟨assembleMessage (mb.SetFieldTo addrs) date (makeAddrString addrs), ?_, ?_⟩
    · simp [MimeBuilder.GetResultMessage, hto]
    · refine ⟨gs "Date:" ++ date ++ crlf ++ gs "Subject:" ++
        (mb.SetFieldTo addrs).header.getZ "subject" ++ crlf ++ gs "From:" ++
        (mb.SetFieldTo addrs).header.getZ "from" ++ crlf,
        makeAddrString addrs ++ crlf ++
        (match (mb.SetFieldTo addrs).header "cc" with
         | some cc => gs "Cc:" ++ cc ++ crlf
         | none => []) ++
        (match (mb.SetFieldTo addrs).header "bcc" with
         | some bcc => gs "Bcc:" ++ bcc ++ crlf
         | none => []) ++
        gs "MIME-Version: 1.0" ++ crlf ++
        (match (mb.SetFieldTo addrs).header (mb.SetFieldTo addrs).contentType.string with
         | some ct => ct ++ crlf
         | none => []), ?_⟩
      simp [assembleMessage, List.append_assoc]

/-- Witness for claim C4: the fresh builder really lacks `to`, and
setting it on one concrete address produces a message with a `To:`
line. -/
theorem c4_missing_to_guard_witness :
    (newMimeBuilder .utf8 .base64).GetResultMessage (gs "") 0 = .error .missingTo ∧
    ∃ out, ((newMimeBuilder .utf8 .base64).SetFieldTo [gs "a@b.cd"]).GetResultMessage
        (gs "") 0 = .ok out ∧ ∃ p q, out = p ++ gs "To:" ++ q :=
  ⟨c4_missing_to_guard.1 _ (gs "") 0 rfl,
   c4_missing_to_guard.2 _ (gs "") [gs "a@b.cd"] (by decide)⟩

/-- Claim C5 (status: confirmed).  With `to` present, finalizing returns
the too-large error (carrying the configured limit) exactly when the
limit is non-zero and the assembled byte length exceeds it; a zero limit
disables the size check and the assembled message of any length comes
back. -/
theorem c5_size_limit_check :
    ∀ (mb : MimeBuilder) (date toVal : GoStr) (maxMsgSize : Nat),
      mb.header "to" = some toVal →
      (mb.GetResultMessage date maxMsgSize = .error (.tooLarge maxMsgSize) ↔
        maxMsgSize ≠ 0 ∧ goLen (assembleMessage mb date toVal) > maxMsgSize) ∧
      mb.GetResultMessage date 0 = .ok (assembleMessage mb date toVal) := by
  intro mb date toVal maxMsgSize h
  constructor
  · unfold MimeBuilder.GetResultMessage
    rw [h]
    by_cases hc : maxMsgSize ≠ 0 ∧ goLen (assembleMessage mb date toVal) > maxMsgSize
    · simp only [hc, if_pos]
      simp [hc]
    · simp [hc]
  · unfold MimeBuilder.GetResultMessage
    rw [h]
    simp

/-- Witness for claim C5: on a concrete builder with `to` set, a limit
of 1 byte is exceeded and reported with that limit, and a limit of 0
returns the assembled message. -/
theorem c5_size_limit_check_witness :
    ((newMimeBuilder .utf8 .base64).SetFieldTo [gs "a@b.cd"]).GetResultMessage
        (gs "") 1 = .error (.tooLarge 1) ∧
    ((newMimeBuilder .utf8 .base64).SetFieldTo [gs "a@b.cd"]).GetResultMessage
        (gs "") 0 =
      .ok (assembleMessage ((newMimeBuilder .utf8 .base64).SetFieldTo [gs "a@b.cd"])
        (gs "") (gs "<a@b.cd>")) :=
  ⟨(c5_size_limit_check _ (gs "") (gs "<a@b.cd>") 1 (by decide)).1.mpr (by decide),
   (c5_size_limit_check _ (gs "") (gs "<a@b.cd>") 0 (by decide)).2⟩

theorem firstEmailError_ne_none_of_mem (emails : List GoStr)
    (h : ∃ e ∈ emails, checkEmail e ≠ none) : firstEmailError emails ≠ none := by
  induction emails with
  | nil =>
    obtain ⟨e, he, _⟩ := h
    cases he
  | cons a rest ih =>
    obtain ⟨e, he, hbad⟩ := h
    unfold firstEmailError
    cases hca : checkEmail a with
    | some err => simp
    | none =>
      simp only
      apply ih
      rcases List.mem_cons.mp he with rfl | hmem
      · exact absurd hca hbad
      · exact ⟨e, hmem, hbad⟩

theorem validateAndAppendEmails_error_unchanged (m : MailState) (emails : List GoStr)
    (err : MailErr) (m2 : MailState)
    (h : m.validateAndAppendEmails emails = (some err, m2)) : m2 = m := by
  unfold MailState.validateAndAppendEmails at h
  by_cases he : emails.isEmpty
  · rw [if_pos he] at h
    exact (Prod.mk.injEq _ _ _ _ ▸ h).2.symm
  · rw [if_neg he] at h
    cases hf : firstEmailError emails with
    | none => rw [hf] at h; cases h
    | some e => rw [hf] at h; exact (Prod.mk.injEq _ _ _ _ ▸ h).2.symm

theorem to_error_unchanged (m : MailState) (emails : List GoStr) (err : MailErr)
    (m2 : MailState) (h : m.To emails = (some err, m2)) : m2 = m := by
  unfold MailState.To at h
  cases hv : m.validateAndAppendEmails emails with
  | mk fst snd =>
    rw [hv] at h
    cases fst with
    | none => cases h
    | some e =>
      have h2 : snd = m2 := (Prod.mk.injEq _ _ _ _ ▸ h).2
      rw [← h2]
      exact validateAndAppendEmails_error_unchanged m emails e snd hv

theorem copyTo_error_unchanged (m : MailState) (emails : List GoStr) (err : MailErr)
    (m2 : MailState) (h : m.CopyTo emails = (some err, m2)) : m2 = m := by
  unfold MailState.CopyTo at h
  cases hv : m.validateAndAppendEmails emails with
  | mk fst snd =>
    rw [hv] at h
    cases fst with
    | none => cases h
    | some e =>
      have h2 : snd = m2 := (Prod.mk.injEq _ _ _ _ ▸ h).2
      rw [← h2]
      exact validateAndAppendEmails_error_unchanged m emails e snd hv

theorem blindCopyTo_error_unchanged (m : MailState) (emails : List GoStr) (err : MailErr)
    (m2 : MailState) (h : m.BlindCopyTo emails = (some err, m2)) : m2 = m := by
  unfold MailState.BlindCopyTo at h
  cases hv : m.validateAndAppendEmails emails with
  | mk fst snd =>
    rw [hv] at h
    cases fst with
    | none => cases h
    | some e =>
      have h2 : snd = m2 := (Prod.mk.injEq _ _ _ _ ▸ h).2
      rw [← h2]
      exact validateAndAppendEmails_error_unchanged m emails e snd hv

/-- Claim C10 (status: confirmed).  To, CopyTo and BlindCopyTo validate
the entire address list before the single append that follows the loop
and before the header-map write, so a call that reports a validation
error leaves the whole Mail state (recipient list and header map) as it
was; and any list containing a failing address does make the call
error out without mutating. -/
theorem c10_setters_atomic :
    ∀ (m : MailState) (emails : List GoStr),
      (∀ err m2, m.To emails = (some err, m2) → m2 = m) ∧
      (∀ err m2, m.CopyTo emails = (some err, m2) → m2 = m) ∧
      (∀ err m2, m.BlindCopyTo emails = (some err, m2) → m2 = m) ∧
      ((∃ e ∈ emails, checkEmail e ≠ none) → ∃ err, m.To emails = (some err, m)) := by
  intro m emails
  refine ⟨fun err m2 h => to_error_unchanged m emails err m2 h,
    fun err m2 h => copyTo_error_unchanged m emails err m2 h,
    fun err m2 h => blindCopyTo_error_unchanged m emails err m2 h, ?_⟩
  intro hbad
  have hne : emails ≠ [] := by
    obtain ⟨e, he, _⟩ := hbad
    intro hnil
    rw [hnil] at he
    cases he
  have hf := firstEmailError_ne_none_of_mem emails hbad
  obtain ⟨err, herr⟩ := Option.ne_none_iff_exists.mp hf
  refine ⟨err, ?_⟩
  unfold MailState.To MailState.validateAndAppendEmails
  rw [if_neg (by simpa [List.isEmpty_iff] using hne), ← herr]

/-- Witness for claim C10: a concrete call with one invalid address
errors out and returns the untouched state. -/
theorem c10_setters_atomic_witness :
    ∃ err, (NewMail .utf8 .base64).To [gs "bad"] = (some err, NewMail .utf8 .base64) :=
  (c10_setters_atomic (NewMail .utf8 .base64) [gs "bad"]).2.2.2
    ⟨gs "bad", by simp, by decide⟩

/-- Claim C3 (status: confirmed, spec-modelled syntax check).  The
per-address check behind To, CopyTo and BlindCopyTo rejects any address
longer than 254 bytes whatever its syntax (the length guard runs before
the parse), rejects the empty string and the whole invalid-address test
corpus, propagates as an error of all three setters, and accepts a
well-formed user@domain.tld address, which is then appended to the
recipient list. -/
theorem c3_address_validation :
    (∀ s : GoStr, goLen s > 254 → checkEmail s ≠ none) ∧
    (∀ (m : MailState) (s : GoStr), checkEmail s ≠ none →
      (m.To [s]).1.isSome ∧ (m.CopyTo [s]).1.isSome ∧ (m.BlindCopyTo [s]).1.isSome) ∧
    checkEmail (gs "") ≠ none ∧
    invalidEmailCorpus.all (fun s => (checkEmail s).isSome) = true ∧
    (∀ m : MailState, (m.To [gs "user@domain.tld"]).1 = none ∧
      (m.To [gs "user@domain.tld"]).2.recipients =
        m.recipients ++ [gs "user@domain.tld"]) := by
  refine ⟨?_, ?_, by decide, by decide, ?_⟩
  · intro s h
    simp [checkEmail, h]
  · intro m s h
    obtain ⟨err, herr⟩ := Option.ne_none_iff_exists.mp h
    have hf : firstEmailError [s] = some err := by
      unfold firstEmailError
      rw [← herr]
    have hv : m.validateAndAppendEmails [s] = (some err, m) := by
      unfold MailState.validateAndAppendEmails
      rw [if_neg (by simp), hf]
    refine ⟨?_, ?_, ?_⟩
    · unfold MailState.To
      rw [hv]
      simp
    · unfold MailState.CopyTo
      rw [hv]
      simp
    · unfold MailState.BlindCopyTo
      rw [hv]
      simp
  · intro m
    have hf : firstEmailError [gs "user@domain.tld"] = none := by decide
    have hv : m.validateAndAppendEmails [gs "user@domain.tld"] =
        (none, { m with recipients := m.recipients ++ [gs "user@domain.tld"] }) := by
      unfold MailState.validateAndAppendEmails
      rw [if_neg (by simp), hf]
    constructor
    · unfold MailState.To
      rw [hv]
    · unfold MailState.To
      rw [hv]

/-- Witness for claim C3: a 255-character address is rejected by length,
a concrete Mail value rejects the empty address through To, and accepts
a well-formed one. -/
theorem c3_address_validation_witness :
    checkEmail (List.replicate 255 'a') ≠ none ∧
    ((NewMail .utf8 .base64).To [gs ""]).1.isSome ∧
    ((NewMail .utf8 .base64).To [gs "user@domain.tld"]).1 = none :=
  ⟨c3_address_validation.1 _ (by decide),
   (c3_address_validation.2.1 _ _ (by decide)).1,
   (c3_address_validation.2.2.2.2 _).1⟩

/-- Claim C8, counterexample.  The claim says the mechanism answers any
prompt containing the substring "Password" with the password.  The code
tests for "Username" first, so the concrete prompt below, which does
contain "Password", is answered with the username instead. -/
theorem c8_counter_username_shadows_password :
    containsTok (gs "Password") (gs "Username and Password please") = true ∧
    AuthLogin.Next { username := gs "user", password := gs "pass" }
      (gs "Username and Password please") true = .ok (some (gs "user")) ∧
    (Except.ok (some (gs "user")) : Except AuthErr (Option GoStr)) ≠
      .ok (some (gs "pass")) := by
  refine ⟨by decide, by decide, by decide⟩

/-- Claim C8, amended (status: corrected).  LOGIN refuses to start over a
channel without TLS with the insecure-channel error; during the
challenge phase a prompt containing "Username" is answered with the
username (this test is made first, so it wins on a prompt containing
both substrings), a prompt containing "Password" but not "Username" is
answered with the password, and any other prompt is an error. -/
theorem c8_login_mechanism :
    (∀ (l : AuthLogin) (srv : ServerInfo), srv.tls = false →
      l.Start srv = .error .insecureChannel) ∧
    (∀ (l : AuthLogin) (p : GoStr), containsTok (gs "Username") p = true →
      l.Next p true = .ok (some l.username)) ∧
    (∀ (l : AuthLogin) (p : GoStr), containsTok (gs "Username") p = false →
      containsTok (gs "Password") p = true →
      l.Next p true = .ok (some l.password)) ∧
    (∀ (l : AuthLogin) (p : GoStr), containsTok (gs "Username") p = false →
      containsTok (gs "Password") p = false →
      l.Next p true = .error .unknownChallenge) := by
  refine ⟨?_, ?_, ?_, ?_⟩
  · intro l srv h
    simp [AuthLogin.Start, h]
  · intro l p h
    simp [AuthLogin.Next, h]
  · intro l p h1 h2
    simp [AuthLogin.Next, h1, h2]
  · intro l p h1 h2
    simp [AuthLogin.Next, h1, h2]

/-- Witness for claim C8: concrete runs of each branch of the amended
statement. -/
theorem c8_login_mechanism_witness :
    AuthLogin.Start { username := gs "u", password := gs "p" } { tls := false } =
      .error .insecureChannel ∧
    AuthLogin.Next { username := gs "u", password := gs "p" } (gs "Username:") true =
      .ok (some (gs "u")) ∧
    AuthLogin.Next { username := gs "u", password := gs "p" } (gs "Password:") true =
      .ok (some (gs "p")) ∧
    AuthLogin.Next { username := gs "u", password := gs "p" } (gs "334 go") true =
      .error .unknownChallenge :=
  ⟨c8_login_mechanism.1 _ _ rfl,
   c8_login_mechanism.2.1 _ _ (by decide),
   c8_login_mechanism.2.2.1 _ _ (by decide) (by decide),
   c8_login_mechanism.2.2.2 _ _ (by decide) (by decide)⟩

theorem mem_insertByOrder (x : AltMessage) (l : List AltMessage) (a : AltMessage) :
    a ∈ insertByOrder x l ↔ a = x ∨ a ∈ l := by
  induction l with
  | nil => simp [insertByOrder]
  | cons y ys ih =>
    unfold insertByOrder
    by_cases hlt : y.order < x.order
    · rw [if_pos hlt]
      simp only [List.mem_cons, ih]
      tauto
    · rw [if_neg hlt]
      simp only [List.mem_cons]

theorem pairwise_insertByOrder (x : AltMessage) (l : List AltMessage)
    (h : l.Pairwise (fun a b => a.order ≤ b.order)) :
    (insertByOrder x l).Pairwise (fun a b => a.order ≤ b.order) := by
  induction l with
  | nil => simp [insertByOrder]
  | cons y ys ih =>
    unfold insertByOrder
    rw [List.pairwise_cons] at h
    by_cases hlt : y.order < x.order
    · rw [if_pos hlt]
      rw [List.pairwise_cons]
      constructor
      · intro b hb
        rcases (mem_insertByOrder x ys b).mp hb with rfl | hmem
        · exact le_of_lt hlt
        · exact h.1 b hmem
      · exact ih h.2
    · rw [if_neg hlt]
      rw [List.pairwise_cons]
      constructor
      · intro b hb
        rcases List.mem_cons.mp hb with rfl | hmem
        · exact le_of_not_lt hlt
        · exact le_trans (le_of_not_lt hlt) (h.1 b hmem)
      · exact List.pairwise_cons.mpr h

theorem pairwise_stableSortByOrder (l : List AltMessage) :
    (stableSortByOrder l).Pairwise (fun a b => a.order ≤ b.order) := by
  induction l with
  | nil => simp [stableSortByOrder]
  | cons x xs ih => exact pairwise_insertByOrder x (stableSortByOrder xs) ih

theorem filter_insertByOrder (x : AltMessage) (l : List AltMessage) (k : Int) :
    (insertByOrder x l).filter (fun a => a.order == k) =
      (x :: l).filter (fun a => a.order == k) := by
  induction l with
  | nil => rfl
  | cons y ys ih =>
    unfold insertByOrder
    by_cases hlt : y.order < x.order
    · rw [if_pos hlt]
      by_cases hyk : y.order = k
      · by_cases hxk : x.order = k
        · rw [hyk, hxk] at hlt
          exact absurd hlt (lt_irrefl k)
        · simp only [List.filter_cons, hyk, hxk, beq_iff_eq, if_pos, if_neg, ih]
          simp [hyk, hxk]
      · simp only [List.filter_cons, beq_iff_eq, hyk, ih]
        simp [hyk]
    · rw [if_neg hlt]

theorem filter_stableSortByOrder (l : List AltMessage) (k : Int) :
    (stableSortByOrder l).filter (fun a => a.order == k) =
      l.filter (fun a => a.order == k) := by
  induction l with
  | nil => rfl
  | cons x xs ih =>
    show (insertByOrder x (stableSortByOrder xs)).filter _ = _
    rw [filter_insertByOrder]
    simp only [List.filter_cons, ih]

/-- Claim C6 (status: confirmed).  GetContent emits the alternative parts
in ascending order; the sort is stable, in the sense that for every
order value the parts carrying it appear exactly in insertion order; in
the concrete example, inserting the html part with order 3 and then the
plain part with order 2 renders the plain part before the html part. -/
theorem c6_alternative_parts_stable_order :
    (∀ l : List AltMessage,
      (stableSortByOrder l).Pairwise (fun a b => a.order ≤ b.order)) ∧
    (∀ (l : List AltMessage) (k : Int),
      (stableSortByOrder l).filter (fun a => a.order == k) =
        l.filter (fun a => a.order == k)) ∧
    stableSortByOrder exampleAlt.msg =
      [{ text := { ctype := .textPlain, text := gs "P" }, order := 2 },
       { text := { ctype := .textHtml, text := gs "H" }, order := 3 }] ∧
    (∃ a b c, exampleAlt.GetContent (newMimeBuilder .utf8 .quotedPrintable) =
      a ++ gs "Content-Type: text/plain" ++ b ++ gs "Content-Type: text/html" ++ c) := by
  refine ⟨pairwise_stableSortByOrder, filter_stableSortByOrder, by decide, ?_⟩
  refine ⟨gs "Content-Type: multipart/alternative; boundary=" ++ boundary ++ crlf ++
      crlf ++ middleBound,
    gs "; charset=UTF-8" ++ crlf ++ gs "Content-Transfer-Encoding: quoted-printable" ++
      crlf ++ crlf ++ gs "P" ++ crlf ++ crlf ++ middleBound,
    gs "; charset=UTF-8" ++ crlf ++ gs "Content-Transfer-Encoding: quoted-printable" ++
      crlf ++ crlf ++ gs "H" ++ crlf ++ crlf ++ endBound, ?_⟩
  decide

theorem joinComma_cons (t : GoStr) (ts : List GoStr) (h : ts ≠ []) :
    joinComma (t :: ts) = t ++ ',' :: joinComma ts := by
  cases ts with
  | nil => exact absurd rfl h
  | cons u r => rfl

theorem eraseCRLF_append (s t : GoStr) :
    eraseCRLF (s ++ t) = eraseCRLF s ++ eraseCRLF t :=
  List.filter_append _ _

theorem eraseCRLF_of_free (a : GoStr) (h : ∀ ch ∈ a, ch ≠ '\r' ∧ ch ≠ '\n') :
    eraseCRLF a = a := by
  apply List.filter_eq_self.mpr
  intro c hc
  obtain ⟨h1, h2⟩ := h c hc
  simp [h1, h2]

theorem eraseCRLF_wrapAngle (a : GoStr) (h : ∀ ch ∈ a, ch ≠ '\r' ∧ ch ≠ '\n') :
    eraseCRLF (wrapAngle a) = wrapAngle a := by
  apply eraseCRLF_of_free
  intro ch hch
  unfold wrapAngle at hch
  rcases List.mem_cons.mp hch with rfl | hm
  · exact ⟨by decide, by decide⟩
  · rcases List.mem_append.mp hm with hma | hmb
    · exact h ch hma
    · rcases List.mem_singleton.mp hmb with rfl
      exact ⟨by decide, by decide⟩

theorem makeAddrStringLoop_erase (l : List GoStr) (acc : GoStr) (hne : l ≠ [])
    (hfree : ∀ a ∈ l, ∀ ch ∈ a, ch ≠ '\r' ∧ ch ≠ '\n') :
    eraseCRLF ((makeAddrStringLoop acc l).dropLast) =
      eraseCRLF acc ++ joinComma (l.map wrapAngle) := by
  induction l generalizing acc with
  | nil => exact absurd rfl hne
  | cons a rest ih =>
    unfold makeAddrStringLoop
    have hacc2 : ∀ acc2 : GoStr,
        (acc2 = acc ∨ acc2 = acc ++ crlf) → eraseCRLF acc2 = eraseCRLF acc := by
      rintro acc2 (rfl | rfl)
      · rfl
      · rw [eraseCRLF_append]
        simp [eraseCRLF, crlf]
    have hfa : ∀ ch ∈ a, ch ≠ '\r' ∧ ch ≠ '\n' := hfree a (List.mem_cons_self a rest)
    cases rest with
    | nil =>
      show eraseCRLF ((makeAddrStringLoop _ []).dropLast) = _
      unfold makeAddrStringLoop
      have hsplit : ∀ acc2 : GoStr,
          acc2 ++ '<' :: a ++ ['>', ','] = (acc2 ++ wrapAngle a) ++ [','] := by
        intro acc2
        simp [wrapAngle]
      rw [hsplit]
      rw [List.dropLast_concat]
      rw [eraseCRLF_append, eraseCRLF_wrapAngle a hfa]
      rw [hacc2 _ (by split <;> [right; left] <;> rfl)]
      rfl
    | cons b r =>
      dsimp only
      rw [ih _ (by simp)
        (fun x hx => hfree x (List.mem_cons_of_mem a hx))]
      have hre : ∀ acc2 : GoStr,
          acc2 ++ '<' :: a ++ ['>', ','] = acc2 ++ (wrapAngle a ++ [',']) := by
        intro acc2
        simp [wrapAngle]
      rw [hre, eraseCRLF_append, eraseCRLF_append, eraseCRLF_wrapAngle a hfa]
      rw [hacc2 _ (by split <;> [right; left] <;> rfl)]
      rw [show List.map wrapAngle (a :: b :: r) =
        wrapAngle a :: List.map wrapAngle (b :: r) from rfl]
      rw [joinComma_cons (wrapAngle a) (List.map wrapAngle (b :: r)) (by simp)]
      have hcomma : eraseCRLF [','] = [','] := by decide
      rw [hcomma]
      simp [List.append_assoc]

/-- Claim C2, amended (status: corrected).  makeAddrString renders every
address in angle brackets, comma-joined with no trailing comma: erasing
the CRLF folds of the output of any nonempty CRLF-free address list
gives exactly the comma-join of the angle-wrapped addresses.  A CRLF
fold is inserted before appending the next address token whenever the
whole accumulated output (not just the current line) plus the token
would pass 76 characters, and the fold lands after the separating comma
of the previous address: one address gives `<a>`, two give `<a>,<b>`,
and the four-example list folds after the comma of the third address. -/
theorem c2_addr_list_format :
    (∀ l : List GoStr, l ≠ [] →
      (∀ a ∈ l, ∀ ch ∈ a, ch ≠ '\r' ∧ ch ≠ '\n') →
      eraseCRLF (makeAddrString l) = joinComma (l.map wrapAngle)) ∧
    makeAddrString [gs "example1@example.com"] = gs "<example1@example.com>" ∧
    makeAddrString [gs "example1@example.com", gs "example2@example.com"] =
      gs "<example1@example.com>,<example2@example.com>" ∧
    makeAddrString emails4 =
      gs "<example1@example.com>,<example2@example.com>,<example3@example.com>," ++
        crlf ++ gs "<example4@example.com>" := by
  refine ⟨?_, by decide, by decide, by decide⟩
  intro l hne hfree
  unfold makeAddrString
  rw [makeAddrStringLoop_erase l [] hne hfree]
  rfl

/-- Witness for claim C2: the general erasure law applied to the
concrete four-address corpus. -/
theorem c2_addr_list_format_witness :
    eraseCRLF (makeAddrString emails4) = joinComma (emails4.map wrapAngle) :=
  c2_addr_list_format.1 emails4 (by decide) (by decide)

theorem fieldsAux_accum (t : List Char) : ∀ (s acc : List Char),
    (∀ c ∈ t, goIsSpace c = false) →
    fieldsAux (t ++ s) acc = fieldsAux s (t.reverse ++ acc) := by
  induction t with
  | nil =>
    intro s acc _
    simp
  | cons c t2 ih =>
    intro s acc h
    have hc : goIsSpace c = false := h c (List.mem_cons_self c t2)
    have hstep : fieldsAux (c :: (t2 ++ s)) acc = fieldsAux (t2 ++ s) (c :: acc) := by
      rw [fieldsAux.eq_def]
      dsimp only
      rw [if_neg (by simp [hc])]
    show fieldsAux (c :: (t2 ++ s)) acc = _
    rw [hstep, ih s (c :: acc) (fun x hx => h x (List.mem_cons_of_mem c hx))]
    simp [List.append_assoc]

theorem fieldsAux_token_spec (s : List Char) (acc : List Char)
    (hacc : ∀ c ∈ acc, goIsSpace c = false) :
    ∀ t ∈ fieldsAux s acc, t ≠ [] ∧ ∀ c ∈ t, goIsSpace c = false := by
  induction s generalizing acc with
  | nil =>
    intro t ht
    unfold fieldsAux at ht
    by_cases he : acc.isEmpty
    · rw [if_pos he] at ht
      cases ht
    · rw [if_neg he] at ht
      rcases List.mem_singleton.mp ht with rfl
      refine ⟨?_, ?_⟩
      · simp only [ne_eq, List.reverse_eq_nil_iff]
        exact fun hnil => he (by rw [hnil]; rfl)
      · intro c hc
        exact hacc c (List.mem_reverse.mp hc)
  | cons c cs ih =>
    intro t ht
    unfold fieldsAux at ht
    by_cases hsp : goIsSpace c
    · rw [if_pos hsp] at ht
      by_cases he : acc.isEmpty
      · rw [if_pos he] at ht
        exact ih [] (by intro x hx; cases hx) t ht
      · rw [if_neg he] at ht
        rcases List.mem_cons.mp ht with rfl | hmem
        · refine ⟨?_, ?_⟩
          · simp only [ne_eq, List.reverse_eq_nil_iff]
            exact fun hnil => he (by rw [hnil]; rfl)
          · intro x hx
            exact hacc x (List.mem_reverse.mp hx)
        · exact ih [] (by intro x hx; cases hx) t hmem
    · rw [if_neg hsp] at ht
      refine ih (c :: acc) ?_ t ht
      intro x hx
      rcases List.mem_cons.mp hx with rfl | hxm
      · exact Bool.not_eq_true _ ▸ (by simpa using hsp)
      · exact hacc x hxm

theorem fields_token_spec (s : GoStr) :
    ∀ t ∈ fields s, t ≠ [] ∧ ∀ c ∈ t, goIsSpace c = false :=
  fieldsAux_token_spec s [] (by intro x hx; cases hx)

theorem fieldsAux_flush_token (t : GoStr) (x : List Char) (hne : t ≠ [])
    (hns : ∀ c ∈ t, goIsSpace c = false) :
    fieldsAux (t ++ crlf ++ x) [] = t :: fieldsAux x [] := by
  rw [List.append_assoc, fieldsAux_accum t (crlf ++ x) [] hns]
  have h1 : fieldsAux (crlf ++ x) (t.reverse ++ []) =
      t.reverse.reverse :: fieldsAux ('\n' :: x) [] := by
    show fieldsAux ('\r' :: '\n' :: x) (t.reverse ++ []) = _
    rw [fieldsAux.eq_def]
    dsimp only
    rw [if_pos (by decide), if_neg (by simp [List.isEmpty_iff, hne])]
    simp
  have h2 : fieldsAux ('\n' :: x) ([] : List Char) = fieldsAux x [] := by
    rw [fieldsAux.eq_def]
    dsimp only
    rw [if_pos (by decide), if_pos (by decide)]
  rw [h1, h2, List.reverse_reverse]

theorem fields_joinCRLF (ts : List GoStr)
    (h : ∀ t ∈ ts, t ≠ [] ∧ ∀ c ∈ t, goIsSpace c = false) :
    fields (joinCRLF ts) = ts := by
  induction ts with
  | nil => rfl
  | cons t rest ih =>
    obtain ⟨hne, hns⟩ := h t (List.mem_cons_self t rest)
    cases rest with
    | nil =>
      show fieldsAux (joinCRLF [t]) [] = [t]
      have hjt : joinCRLF [t] = t ++ [] := by simp [joinCRLF]
      rw [hjt, fieldsAux_accum t [] [] hns]
      rw [fieldsAux.eq_def]
      dsimp only
      rw [if_neg (by simp [List.isEmpty_iff, hne])]
      rw [List.reverse_append, List.reverse_reverse]
      rfl
    | cons u rest2 =>
      show fieldsAux (joinCRLF (t :: u :: rest2)) [] = t :: u :: rest2
      have hj : joinCRLF (t :: u :: rest2) = t ++ crlf ++ joinCRLF (u :: rest2) := rfl
      rw [hj, fieldsAux_flush_token t (joinCRLF (u :: rest2)) hne hns]
      have ihr := ih (fun x hx => h x (List.mem_cons_of_mem t hx))
      rw [show fieldsAux (joinCRLF (u :: rest2)) [] = fields (joinCRLF (u :: rest2)) from rfl,
        ihr]

theorem splitF_mem_spec (fuel : Nat) : ∀ s : GoStr, s.length ≤ fuel →
    ∀ c ∈ splitF fuel s, c ≠ [] ∧ c.length ≤ lineLengthLimit ∧ ∀ ch ∈ c, ch ∈ s := by
  induction fuel with
  | zero =>
    intro s hs c hc
    have : s = [] := List.length_eq_zero.mp (Nat.le_zero.mp hs)
    rw [this] at hc
    cases hc
  | succ fuel ih =>
    intro s hs c hc
    cases s with
    | nil => cases hc
    | cons a as =>
      rw [show splitF (fuel + 1) (a :: as) =
        (a :: as).take lineLengthLimit :: splitF fuel ((a :: as).drop lineLengthLimit)
        from rfl] at hc
      rcases List.mem_cons.mp hc with rfl | hmem
      · refine ⟨?_, ?_, ?_⟩
        · simp [lineLengthLimit]
        · rw [List.length_take]
          exact min_le_left _ _
        · intro ch hch
          exact List.take_subset _ _ hch
      · have hlen : ((a :: as).drop lineLengthLimit).length ≤ fuel := by
          rw [List.length_drop]
          simp only [List.length_cons] at hs
          simp [lineLengthLimit]
          omega
        obtain ⟨h1, h2, h3⟩ := ih _ hlen c hmem
        exact ⟨h1, h2, fun ch hch => List.drop_subset _ _ (h3 ch hch)⟩

theorem split_mem_spec (s : GoStr) :
    ∀ c ∈ split s, c ≠ [] ∧ c.length ≤ lineLengthLimit ∧ ∀ ch ∈ c, ch ∈ s :=
  splitF_mem_spec s.length s (le_refl _)

theorem split_ne_nil (s : GoStr) (h : s ≠ []) : split s ≠ [] := by
  cases s with
  | nil => exact absurd rfl h
  | cons a as =>
    show splitF (as.length + 1) (a :: as) ≠ []
    rw [show splitF (as.length + 1) (a :: as) =
      (a :: as).take lineLengthLimit :: splitF as.length ((a :: as).drop lineLengthLimit)
      from rfl]
    exact List.cons_ne_nil _ _

theorem expandTok_ne_nil (t : GoStr) (h : t ≠ []) : expandTok t ≠ [] := by
  unfold expandTok
  by_cases hl : t.length > lineLengthLimit
  · rw [if_pos hl]
    exact split_ne_nil t h
  · rw [if_neg hl]
    exact List.cons_ne_nil _ _

theorem expand_ne_nil (ts : List GoStr) (hne : ts ≠ [])
    (h : ∀ t ∈ ts, t ≠ []) : expand ts ≠ [] := by
  cases ts with
  | nil => exact absurd rfl hne
  | cons t rest =>
    show expandTok t ++ expand rest ≠ []
    have := expandTok_ne_nil t (h t (List.mem_cons_self t rest))
    simp [List.append_eq_nil, this]

theorem expand_mem_spec (ts : List GoStr)
    (h : ∀ t ∈ ts, t ≠ [] ∧ ∀ c ∈ t, goIsSpace c = false) :
    ∀ u ∈ expand ts,
      u ≠ [] ∧ u.length ≤ lineLengthLimit ∧ ∀ c ∈ u, goIsSpace c = false := by
  intro u hu
  obtain ⟨t, ht, hut⟩ := List.mem_flatMap.mp hu
  obtain ⟨htne, htns⟩ := h t ht
  unfold expandTok at hut
  by_cases hl : t.length > lineLengthLimit
  · rw [if_pos hl] at hut
    obtain ⟨h1, h2, h3⟩ := split_mem_spec t u hut
    exact ⟨h1, h2, fun c hc => htns c (h3 c hc)⟩
  · rw [if_neg hl] at hut
    rcases List.mem_singleton.mp hut with rfl
    exact ⟨htne, le_of_not_lt hl, htns⟩

theorem joinCRLF_cons (t : GoStr) (ts : List GoStr) (h : ts ≠ []) :
    joinCRLF (t :: ts) = t ++ crlf ++ joinCRLF ts := by
  cases ts with
  | nil => exact absurd rfl h
  | cons u rest => rfl

theorem joinCRLF_append (xs ys : List GoStr) (hx : xs ≠ []) (hy : ys ≠ []) :
    joinCRLF (xs ++ ys) = joinCRLF xs ++ crlf ++ joinCRLF ys := by
  induction xs with
  | nil => exact absurd rfl hx
  | cons x xs2 ih =>
    cases xs2 with
    | nil =>
      show joinCRLF (x :: ys) = joinCRLF [x] ++ crlf ++ joinCRLF ys
      rw [joinCRLF_cons x ys hy]
      rfl
    | cons x2 xs3 =>
      show joinCRLF (x :: (x2 :: xs3 ++ ys)) = _
      rw [joinCRLF_cons x (x2 :: xs3 ++ ys) (by simp),
        ih (by simp),
        joinCRLF_cons x (x2 :: xs3) (by simp)]
      simp [List.append_assoc]

theorem joinCRLF_ne_nil (ts : List GoStr) (hne : ts ≠ [])
    (h : ∀ t ∈ ts, t ≠ []) : joinCRLF ts ≠ [] := by
  cases ts with
  | nil => exact absurd rfl hne
  | cons t rest =>
    rcases List.exists_cons_of_ne_nil (h t (List.mem_cons_self t rest)) with ⟨a, as, rfl⟩
    cases rest with
    | nil => exact List.cons_ne_nil _ _
    | cons u rest2 =>
      rw [joinCRLF_cons _ _ (by simp)]
      simp

theorem expandTok_join (t : GoStr) :
    (if t.length > lineLengthLimit then joinCRLF (split t) else t) =
      joinCRLF (expandTok t) := by
  unfold expandTok
  by_cases hl : t.length > lineLengthLimit
  · rw [if_pos hl, if_pos hl]
  · rw [if_neg hl, if_neg hl]
    rfl

theorem splitHeaderBody_eq (ts : List GoStr) (hne : ts ≠ [])
    (h : ∀ t ∈ ts, t ≠ []) :
    splitHeaderBody ts = joinCRLF (expand ts) ++ crlf := by
  induction ts with
  | nil => exact absurd rfl hne
  | cons t rest ih =>
    have htne : t ≠ [] := h t (List.mem_cons_self t rest)
    cases rest with
    | nil =>
      show (if t.length > lineLengthLimit then joinCRLF (split t) else t) ++ crlf ++
        splitHeaderBody [] = joinCRLF (expand [t]) ++ crlf
      rw [expandTok_join]
      show joinCRLF (expandTok t) ++ crlf ++ [] = joinCRLF (expand [t]) ++ crlf
      rw [show expand [t] = expandTok t ++ [] from rfl, List.append_nil, List.append_nil]
    | cons u rest2 =>
      show (if t.length > lineLengthLimit then joinCRLF (split t) else t) ++ crlf ++
        splitHeaderBody (u :: rest2) = joinCRLF (expand (t :: u :: rest2)) ++ crlf
      rw [expandTok_join,
        ih (by simp) (fun x hx => h x (List.mem_cons_of_mem t hx))]
      rw [show expand (t :: u :: rest2) = expandTok t ++ expand (u :: rest2) from rfl]
      rw [joinCRLF_append (expandTok t) (expand (u :: rest2))
        (expandTok_ne_nil t htne)
        (expand_ne_nil (u :: rest2) (by simp)
          (fun x hx => h x (List.mem_cons_of_mem t hx)))]
      simp [List.append_assoc]

theorem take_drop_crlf (x : GoStr) :
    (x ++ crlf).take ((x ++ crlf).length - 2) = x := by
  have hlen : (x ++ crlf).length - 2 = x.length := by
    simp [crlf]
  rw [hlen]
  exact List.take_left x crlf

theorem splitHeader_eq_join_expand (hdr : GoStr) (h0 : hdr ≠ [])
    (hf : fields hdr ≠ []) :
    splitHeader hdr = joinCRLF (expand (fields hdr)) := by
  unfold splitHeader
  rw [if_neg h0]
  dsimp only
  rw [if_neg hf]
  rw [splitHeaderBody_eq (fields hdr) hf
    (fun t ht => (fields_token_spec hdr t ht).1)]
  exact take_drop_crlf _

theorem expand_eq_self (ts : List GoStr)
    (h : ∀ t ∈ ts, t.length ≤ lineLengthLimit) : expand ts = ts := by
  induction ts with
  | nil => rfl
  | cons t rest ih =>
    show expandTok t ++ expand rest = t :: rest
    unfold expandTok
    rw [if_neg (not_lt_of_le (h t (List.mem_cons_self t rest)))]
    rw [ih (fun x hx => h x (List.mem_cons_of_mem t hx))]
    rfl

theorem splitHeader_joinCRLF_canonical (ts : List GoStr) (hne : ts ≠ [])
    (h : ∀ t ∈ ts, t ≠ [] ∧ t.length ≤ lineLengthLimit ∧ ∀ c ∈ t, goIsSpace c = false) :
    splitHeader (joinCRLF ts) = joinCRLF ts := by
  have hjne : joinCRLF ts ≠ [] := joinCRLF_ne_nil ts hne (fun t ht => (h t ht).1)
  have hfj : fields (joinCRLF ts) = ts :=
    fields_joinCRLF ts (fun t ht => ⟨(h t ht).1, (h t ht).2.2⟩)
  rw [splitHeader_eq_join_expand (joinCRLF ts) hjne (by rw [hfj]; exact hne), hfj,
    expand_eq_self ts (fun t ht => (h t ht).2.1)]

theorem splitHeader_idem (hdr : GoStr) :
    splitHeader (splitHeader hdr) = splitHeader hdr := by
  by_cases h0 : hdr = []
  · rw [h0]
    rfl
  by_cases hf : fields hdr = []
  · have heq : splitHeader hdr = hdr := by
      unfold splitHeader
      rw [if_neg h0]
      dsimp only
      rw [if_pos hf]
    rw [heq]
    exact heq
  · have heq : splitHeader hdr = joinCRLF (expand (fields hdr)) :=
      splitHeader_eq_join_expand hdr h0 hf
    have hcanon := expand_mem_spec (fields hdr) (fields_token_spec hdr)
    have hene : expand (fields hdr) ≠ [] :=
      expand_ne_nil (fields hdr) hf (fun t ht => (fields_token_spec hdr t ht).1)
    rw [heq]
    exact splitHeader_joinCRLF_canonical (expand (fields hdr)) hene hcanon

/-- Claim C7, counterexample.  The string `a b` is already correctly
folded in the sense of the claim (one line, three characters, well
within 76), yet splitHeader does not reproduce it: folding re-splits at
every whitespace run and rejoins with CRLF, giving `a CRLF b`. -/
theorem c7_counter_folded_not_fixed :
    isCorrectlyFolded (gs "a b") = true ∧
    splitHeader (gs "a b") = gs "a" ++ crlf ++ gs "b" ∧
    splitHeader (gs "a b") ≠ gs "a b" := by
  refine ⟨by decide, by decide, by decide⟩

/-- Claim C7, amended (status: corrected).  splitHeader is idempotent as
a function: refolding its own output reproduces it, for every input.
The already-folded strings it fixes are exactly its possible outputs:
CRLF-joins of nonempty whitespace-free tokens of at most 76 characters.
An already-folded string whose lines contain internal whitespace is
re-split at those runs instead of being reproduced. -/
theorem c7_splitHeader_idempotent :
    (∀ hdr : GoStr, splitHeader (splitHeader hdr) = splitHeader hdr) ∧
    (∀ ts : List GoStr, ts ≠ [] →
      (∀ t ∈ ts, t ≠ [] ∧ t.length ≤ lineLengthLimit ∧ ∀ c ∈ t, goIsSpace c = false) →
      splitHeader (joinCRLF ts) = joinCRLF ts) :=
  ⟨splitHeader_idem, splitHeader_joinCRLF_canonical⟩

/-- Witness for claim C7: idempotence observed on a concrete two-token
string, and reproduction of a concrete correctly folded two-line
header. -/
theorem c7_splitHeader_idempotent_witness :
    splitHeader (splitHeader (gs "x y")) = splitHeader (gs "x y") ∧
    splitHeader (joinCRLF [gs "abc", gs "defg"]) = joinCRLF [gs "abc", gs "defg"] :=
  ⟨c7_splitHeader_idempotent.1 (gs "x y"),
   c7_splitHeader_idempotent.2 [gs "abc", gs "defg"] (by decide) (by decide)⟩

end Wail
